import Mathlib

/-!
Verification of the GDeflatePacker wrapper (src/GDeflate.Wrapper/GDeflateShim.cpp)
and of the block-parallel codec it wraps.  The shim itself only forwards three
flat C entry points to the GDeflate library; the library implementation is not
part of the sampled sources, so the codec is modelled from the specification
(section markers below say so explicitly).  Buffers are lists of byte values
(naturals below 256), sizes are naturals.
-/

namespace GDeflatePacker

/-- Modelled from the spec: fixed maximum uncompressed block size
("e.g., 64 KiB", and the concrete scenario uses 65,536). -/
def kBlockSize : Nat := 65536

/-- Modelled from the spec: minimum back-reference length worth emitting
(DEFLATE-style token alphabet). -/
def kMinMatch : Nat := 3

/-- Modelled from the spec: a token is either a literal byte or a
(distance, length) back-reference confined to the current block. -/
inductive Token where
  | lit (b : Nat)
  | ref (dist len : Nat)
deriving DecidableEq, Repr

/-- Length of the longest common run of `block` starting at `src` and `tgt`,
capped by `fuel`; every compared position must lie inside the block. -/
def matchLenAt (block : List Nat) (src tgt : Nat) : Nat → Nat
  | 0 => 0
  | fuel + 1 =>
    if tgt < block.length ∧ block.get? src = block.get? tgt then
      1 + matchLenAt block (src + 1) (tgt + 1) fuel
    else 0

/-- Keep the better of a previously found match and a fresh candidate. -/
def better (cur : Option (Nat × Nat)) (d l : Nat) : Option (Nat × Nat) :=
  match cur with
  | none => if kMinMatch ≤ l then some (d, l) else none
  | some (d0, l0) => if l0 < l ∧ kMinMatch ≤ l then some (d, l) else some (d0, l0)

/-- Pick the longest admissible match among candidate distances. -/
def bestMatch (block : List Nat) (pos : Nat) : List Nat → Option (Nat × Nat)
  | [] => none
  | d :: ds =>
    better (bestMatch block pos ds) d (matchLenAt block (pos - d) pos (block.length - pos))

/-- Modelled from the spec: LZ77-style match search windowed to the current
block only; the compression level bounds the search effort. -/
def findMatch (level : Nat) (block : List Nat) (pos : Nat) : Option (Nat × Nat) :=
  bestMatch block pos (List.range' 1 (min pos (8 * (level + 1))))

theorem better_minMatch {cur : Option (Nat × Nat)} {d l d2 l2 : Nat}
    (hcur : ∀ d0 l0, cur = some (d0, l0) → kMinMatch ≤ l0)
    (h : better cur d l = some (d2, l2)) : kMinMatch ≤ l2 := by
  rcases cur with _ | ⟨d0, l0⟩
  · simp only [better] at h
    split at h
    · cases h; assumption
    · cases h
  · simp only [better] at h
    split at h
    · rename_i hc
      cases h; exact hc.2
    · cases h; exact hcur _ _ rfl

theorem bestMatch_minMatch {block : List Nat} {pos : Nat} {cands : List Nat}
    {d l : Nat} (h : bestMatch block pos cands = some (d, l)) : kMinMatch ≤ l := by
  induction cands generalizing d l with
  | nil => simp [bestMatch] at h
  | cons c cs ih =>
    exact better_minMatch (fun d0 l0 hm => ih hm) h

theorem findMatch_minMatch {level : Nat} {block : List Nat} {pos d l : Nat}
    (h : findMatch level block pos = some (d, l)) : kMinMatch ≤ l :=
  bestMatch_minMatch h

/-- Modelled from the spec: greedy tokenizer for one block; emits a
back-reference when the level-bounded search finds one, else a literal.
`fuel` only drives the recursion; `tokenize` supplies enough of it. -/
def tokenizeAux (level : Nat) (block : List Nat) : Nat → Nat → List Token
  | 0, _ => []
  | fuel + 1, pos =>
    if pos < block.length then
      match findMatch level block pos with
      | some (d, l) => Token.ref d l :: tokenizeAux level block fuel (pos + l)
      | none => Token.lit (block.getD pos 0) :: tokenizeAux level block fuel (pos + 1)
    else []

/-- Token stream of one block. -/
def tokenize (level : Nat) (block : List Nat) : List Token :=
  tokenizeAux level block block.length 0

/-- Decoder helper: append `len` bytes copied one at a time from `dist`
bytes back in the output produced so far. -/
def refCopy (out : List Nat) (dist : Nat) : Nat → List Nat
  | 0 => out
  | len + 1 => refCopy (out ++ [out.getD (out.length - dist) 0]) dist len

/-- Modelled from the spec: token-stream decoder; a back-reference whose
distance is zero or exceeds the progress inside the block is an invalid
token and fails the decode. -/
def decodeAux : List Token → List Nat → Option (List Nat)
  | [], out => some out
  | Token.lit b :: ts, out => decodeAux ts (out ++ [b])
  | Token.ref d l :: ts, out =>
    if 1 ≤ d ∧ d ≤ out.length then decodeAux ts (refCopy out d l) else none

/-- Running check that every back-reference's distance is positive and at
most the current position inside the block. -/
def tokensValidFrom : List Token → Nat → Bool
  | [], _ => true
  | Token.lit _ :: ts, pos => tokensValidFrom ts (pos + 1)
  | Token.ref d l :: ts, pos =>
    decide (1 ≤ d ∧ d ≤ pos ∧ kMinMatch ≤ l) && tokensValidFrom ts (pos + l)

/-- Byte serialization of one token (marker byte then payload bytes). -/
def encodeToken : Token → List Nat
  | Token.lit b => [0, b % 256]
  | Token.ref d l => [1, d % 256, d / 256 % 256, l % 256, l / 256 % 256]

def encodeTokens : List Token → List Nat
  | [] => []
  | t :: ts => encodeToken t ++ encodeTokens ts

/-- Byte deserialization of a token stream; unknown markers or truncated
tokens fail. -/
def decodeTokenBytes : List Nat → Option (List Token)
  | [] => some []
  | 0 :: b :: rest =>
    match decodeTokenBytes rest with
    | some ts => some (Token.lit b :: ts)
    | none => none
  | 1 :: d0 :: d1 :: l0 :: l1 :: rest =>
    match decodeTokenBytes rest with
    | some ts => some (Token.ref (d0 + 256 * d1) (l0 + 256 * l1) :: ts)
    | none => none
  | _ => none

/-- Little-endian 32-bit encoding of a size field. -/
def le32 (n : Nat) : List Nat :=
  [n % 256, n / 256 % 256, n / 65536 % 256, n / 16777216 % 256]

/-- Read back a little-endian 32-bit field. -/
def rd32 (b0 b1 b2 b3 : Nat) : Nat :=
  b0 + 256 * b1 + 65536 * b2 + 16777216 * b3

/-- Modelled from the spec: auxiliary checksum (flags bit 0 enables it):
the byte sum of the payload, reduced mod 256. -/
def checksumOf (l : List Nat) : Nat := l.sum % 256

/-- Modelled from the spec: payload of one block before the optional
checksum: entropy-coded tokens behind marker 1, or, when that would not be
smaller, the stored-raw fallback behind marker 0. -/
def rawPayloadOf (level : Nat) (block : List Nat) : List Nat :=
  let coded := 1 :: encodeTokens (tokenize level block)
  let stored := 0 :: block
  if coded.length < stored.length then coded else stored

/-- Modelled from the spec: complete payload of one block; when flags bit 0
is set a trailing checksum byte is appended. -/
def compressBlock (level flags : Nat) (block : List Nat) : List Nat :=
  let p := rawPayloadOf level block
  if flags % 2 = 1 then p ++ [checksumOf p] else p

/-- Verify and remove the trailing checksum byte of a payload. -/
def stripChecksum (payload : List Nat) : Option (List Nat) :=
  payload.getLast?.bind fun c =>
    if checksumOf payload.dropLast = c then some payload.dropLast else none

/-- Decode the checksum-free core of a block payload against its declared
uncompressed size; an unknown marker, a failed token decode or a length
mismatch all fail. -/
def decodeCore (uncompSize : Nat) : List Nat → Option (List Nat)
  | [] => none
  | m :: body =>
    if m = 0 then (if body.length = uncompSize then some body else none)
    else if m = 1 then
      (decodeTokenBytes body).bind fun ts =>
        (decodeAux ts []).bind fun out =>
          if out.length = uncompSize then some out else none
    else none

/-- Modelled from the spec: decode one block payload; when flags bit 0 is
set the trailing checksum byte is verified and removed first, and a
mismatch fails the block. -/
def decodeBlockPayload (flags uncompSize : Nat) (payload : List Nat) : Option (List Nat) :=
  (if flags % 2 = 1 then stripChecksum payload else some payload).bind
    (decodeCore uncompSize)

/-- Split a list into chunks of `c + 1` elements (the last may be shorter);
`fuel` only drives the recursion. -/
def chunksByAux (c : Nat) : Nat → List Nat → List (List Nat)
  | 0, _ => []
  | _ + 1, [] => []
  | fuel + 1, a :: as =>
    (a :: as).take (c + 1) :: chunksByAux c fuel ((a :: as).drop (c + 1))

/-- Modelled from the spec: the block segmenter; fixed-size blocks, the
final one possibly shorter. -/
def blocksOf (l : List Nat) : List (List Nat) :=
  chunksByAux (kBlockSize - 1) l.length l

/-- Per-block header records: declared uncompressed and compressed sizes. -/
def recsOf (level flags : Nat) (blocks : List (List Nat)) : List (Nat × Nat) :=
  blocks.map fun b => (b.length, (compressBlock level flags b).length)

def recsBytes : List (Nat × Nat) → List Nat
  | [] => []
  | (u, c) :: rs => le32 u ++ (le32 c ++ recsBytes rs)

/-- Modelled from the spec: stream header: magic, version, flags, block
count, then one fixed-size record per block. -/
def headerBytes (flags : Nat) (recs : List (Nat × Nat)) : List Nat :=
  71 :: 68 :: 1 :: (le32 flags ++ (le32 recs.length ++ recsBytes recs))

/-- Modelled from the spec: the compressor; header first, then the block
payloads in block order. -/
def compressStream (level flags : Nat) (input : List Nat) : List Nat :=
  headerBytes flags (recsOf level flags (blocksOf input)) ++
    ((blocksOf input).map (compressBlock level flags)).flatten

/-- Parse `n` per-block records off the byte stream. -/
def parseRecs : Nat → List Nat → Option (List (Nat × Nat) × List Nat)
  | 0, rest => some ([], rest)
  | n + 1, u0 :: u1 :: u2 :: u3 :: c0 :: c1 :: c2 :: c3 :: rest =>
    match parseRecs n rest with
    | some (rs, rest2) => some ((rd32 u0 u1 u2 u3, rd32 c0 c1 c2 c3) :: rs, rest2)
    | none => none
  | _ + 1, _ => none

/-- Modelled from the spec: header validation; magic or version mismatch and
truncation are hard failures. -/
def parseHeader : List Nat → Option (Nat × List (Nat × Nat) × List Nat)
  | 71 :: 68 :: 1 :: f0 :: f1 :: f2 :: f3 :: n0 :: n1 :: n2 :: n3 :: rest =>
    match parseRecs (rd32 n0 n1 n2 n3) rest with
    | some (rs, rest2) => some (rd32 f0 f1 f2 f3, rs, rest2)
    | none => none
  | _ => none

/-- Cut the concatenated payload area into per-block payloads using the
declared compressed sizes; leftover or missing bytes fail. -/
def splitPayloads : List (Nat × Nat) → List Nat → Option (List (List Nat))
  | [], [] => some []
  | [], _ :: _ => none
  | (_, c) :: rs, bytes =>
    if c ≤ bytes.length then
      match splitPayloads rs (bytes.drop c) with
      | some ps => some (bytes.take c :: ps)
      | none => none
    else none

/-- Decode every block payload; any single block failure fails the whole
list. -/
def decodeBlocks (flags : Nat) : List (Nat × Nat) → List (List Nat) → Option (List (List Nat))
  | [], [] => some []
  | [], _ :: _ => none
  | _ :: _, [] => none
  | (u, _) :: rs, p :: ps =>
    (decodeBlockPayload flags u p).bind fun s =>
      (decodeBlocks flags rs ps).bind fun ss => some (s :: ss)

/-- Precomputed output offset of every block: the sum of the preceding
blocks' declared uncompressed sizes. -/
def offsets (acc : Nat) : List (Nat × Nat) → List Nat
  | [] => []
  | (u, _) :: rs => acc :: offsets (acc + u) rs

/-- Write `bytes` into `buf` at offset `off`, leaving the rest alone. -/
def writeAt (buf : List Nat) (off : Nat) (bytes : List Nat) : List Nat :=
  buf.take off ++ (bytes ++ buf.drop (off + bytes.length))

/-- Apply a list of disjoint-offset writes in the given order. -/
def applyWrites : List (Nat × List Nat) → List Nat → List Nat
  | [], buf => buf
  | (o, bs) :: ws, buf => applyWrites ws (writeAt buf o bs)

/-- Modelled from the spec: one decode task per block dispatched across up
to `numWorkers` workers, each worker owning a contiguous run of blocks; the
workers' completed writes land in worker-completion order (modelled as the
reverse of dispatch order), which is harmless because the write ranges are
disjoint. -/
def scheduleWrites (numWorkers : Nat) (ws : List (Nat × List Nat)) : List (Nat × List Nat) :=
  let w := max 1 numWorkers
  let per := (ws.length + w - 1) / w
  ((List.range w).map fun j => (ws.drop (j * per)).take per).reverse.flatten

/-- Modelled from the spec: the parallel decompressor; parses and validates
the header, splits the payload area, decodes every block, and scatters each
block's bytes to its precomputed disjoint offset. -/
def decompressStream (stream : List Nat) (outputSize numWorkers : Nat) : Option (List Nat) :=
  (parseHeader stream).bind fun fr =>
    (splitPayloads fr.2.1 fr.2.2).bind fun payloads =>
      (decodeBlocks fr.1 fr.2.1 payloads).bind fun slices =>
        if (fr.2.1.map Prod.fst).sum = outputSize then
          some (applyWrites
            (scheduleWrites numWorkers ((offsets 0 fr.2.1).zip slices))
            (List.replicate outputSize 0))
        else none

/-- Number of blocks covering `n` input bytes. -/
def numBlocks (n : Nat) : Nat := (n + kBlockSize - 1) / kBlockSize

namespace GDeflate

/-- Modelled from the spec: worst-case compressed size: fixed header, one
record plus marker-and-checksum overhead per block, and the stored-raw
payload bytes. -/
def CompressBound (size : Nat) : Nat := 11 + 10 * numBlocks size + size

/-- Result of a compress call: success flag, the (whole) output buffer after
the call, and the value left in the caller's size field. -/
structure CompressResult where
  ok : Bool
  outBuf : List Nat
  outSize : Nat
deriving DecidableEq, Repr

/-- Modelled from the spec: `GDeflate::Compress`; `outputSize` carries the
output capacity on entry and receives the actual compressed size on
success; insufficient capacity fails without touching the buffer. -/
def Compress (output : List Nat) (outputSize : Nat) (input : List Nat)
    (level flags : Nat) : CompressResult :=
  let s := compressStream level flags input
  if s.length ≤ outputSize then
    ⟨true, s ++ output.drop s.length, s.length⟩
  else
    ⟨false, output, outputSize⟩

/-- Modelled from the spec: `GDeflate::Decompress`; `outputSize` is the
caller-supplied exact uncompressed size, passed by value. -/
def Decompress (output : List Nat) (outputSize : Nat) (input : List Nat)
    (numWorkers : Nat) : Bool × List Nat :=
  match decompressStream input outputSize numWorkers with
  | some out => (true, out ++ output.drop out.length)
  | none => (false, output)

end GDeflate

/-- Shim export (src/GDeflate.Wrapper/GDeflateShim.cpp line 6): forwards to
`GDeflate::CompressBound`. -/
def GDeflateCompressBound (size : Nat) : Nat :=
  GDeflate.CompressBound size

/-- Shim export (src/GDeflate.Wrapper/GDeflateShim.cpp line 11): forwards to
`GDeflate::Compress`. -/
def GDeflateCompress (output : List Nat) (outputSize : Nat) (input : List Nat)
    (level flags : Nat) : GDeflate.CompressResult :=
  GDeflate.Compress output outputSize input level flags

/-- Shim export (src/GDeflate.Wrapper/GDeflateShim.cpp line 16): forwards to
`GDeflate::Decompress`. -/
def GDeflateDecompress (output : List Nat) (outputSize : Nat) (input : List Nat)
    (numWorkers : Nat) : Bool × List Nat :=
  GDeflate.Decompress output outputSize input numWorkers

/-- Caller-visible state for the pointer-vs-value calling convention:
the caller's size variable and the caller's output buffer. -/
structure CallerEnv where
  sizeVar : Nat
  outBuf : List Nat
deriving DecidableEq, Repr

/-- A call to the compress export: the size variable's address is passed, so
the call may overwrite it with the actual compressed size. -/
def compressCall (env : CallerEnv) (input : List Nat) (level flags : Nat) :
    CallerEnv × Bool :=
  let r := GDeflateCompress env.outBuf env.sizeVar input level flags
  (⟨r.outSize, r.outBuf⟩, r.ok)

/-- A call to the decompress export: the size is passed by value, so only
the output buffer can change. -/
def decompressCall (env : CallerEnv) (input : List Nat) (numWorkers : Nat) :
    CallerEnv × Bool :=
  let r := GDeflateDecompress env.outBuf env.sizeVar input numWorkers
  (⟨env.sizeVar, r.2⟩, r.1)

/-! ### Match search correctness -/

theorem matchLenAt_getEq {block : List Nat} :
    ∀ {fuel src tgt k : Nat}, k < matchLenAt block src tgt fuel →
      block.get? (src + k) = block.get? (tgt + k) := by
  intro fuel
  induction fuel with
  | zero => intro src tgt k hk; simp [matchLenAt] at hk
  | succ fuel ih =>
    intro src tgt k hk
    simp only [matchLenAt] at hk
    split at hk
    · rename_i hc
      cases k with
      | zero => simpa using hc.2
      | succ k =>
        have := @ih (src + 1) (tgt + 1) k (by omega)
        have h1 : src + 1 + k = src + (k + 1) := by omega
        have h2 : tgt + 1 + k = tgt + (k + 1) := by omega
        rw [h1, h2] at this
        exact this
    · omega

theorem matchLenAt_add_le {block : List Nat} :
    ∀ {fuel src tgt : Nat}, tgt ≤ block.length →
      tgt + matchLenAt block src tgt fuel ≤ block.length := by
  intro fuel
  induction fuel with
  | zero => intro src tgt h; simpa [matchLenAt] using h
  | succ fuel ih =>
    intro src tgt h
    simp only [matchLenAt]
    split
    · rename_i hc
      have := @ih (src + 1) (tgt + 1) (by omega)
      omega
    · omega

/-- What the level-bounded search guarantees about a returned match. -/
def FoundMatch (block : List Nat) (pos d l : Nat) : Prop :=
  1 ≤ d ∧ d ≤ pos ∧ kMinMatch ≤ l ∧ pos + l ≤ block.length ∧
    ∀ k < l, block.get? (pos - d + k) = block.get? (pos + k)

theorem better_spec {block : List Nat} {pos : Nat} {cur : Option (Nat × Nat)}
    {c d l : Nat}
    (hcur : ∀ d0 l0, cur = some (d0, l0) → FoundMatch block pos d0 l0)
    (hc1 : 1 ≤ c) (hc2 : c ≤ pos) (hpos : pos ≤ block.length)
    (h : better cur c (matchLenAt block (pos - c) pos (block.length - pos)) = some (d, l)) :
    FoundMatch block pos d l := by
  have hcand : kMinMatch ≤ matchLenAt block (pos - c) pos (block.length - pos) →
      FoundMatch block pos c (matchLenAt block (pos - c) pos (block.length - pos)) := by
    intro hmin
    refine ⟨hc1, hc2, hmin, matchLenAt_add_le hpos, ?_⟩
    intro k hk
    exact matchLenAt_getEq hk
  rcases cur with _ | ⟨d0, l0⟩
  · simp only [better] at h
    split at h
    · rename_i hge; cases h; exact hcand hge
    · cases h
  · simp only [better] at h
    split at h
    · rename_i hge; cases h; exact hcand hge.2
    · cases h; exact hcur _ _ rfl

theorem bestMatch_spec {block : List Nat} {pos : Nat} :
    ∀ {cands : List Nat} {d l : Nat}, (∀ c ∈ cands, 1 ≤ c ∧ c ≤ pos) →
      pos ≤ block.length →
      bestMatch block pos cands = some (d, l) → FoundMatch block pos d l := by
  intro cands
  induction cands with
  | nil => intro d l _ _ h; simp [bestMatch] at h
  | cons c cs ih =>
    intro d l hc hpos h
    have hhd := hc c (by simp)
    exact better_spec (fun d0 l0 hm => ih (fun x hx => hc x (by simp [hx])) hpos hm)
      hhd.1 hhd.2 hpos h

theorem findMatch_spec {level : Nat} {block : List Nat} {pos d l : Nat}
    (hpos : pos ≤ block.length)
    (h : findMatch level block pos = some (d, l)) : FoundMatch block pos d l := by
  refine bestMatch_spec ?_ hpos h
  intro c hcmem
  rw [List.mem_range'] at hcmem
  obtain ⟨i, hi, hrw⟩ := hcmem
  omega

/-! ### Token decode inverts the tokenizer -/

theorem refCopy_take {block : List Nat} {d : Nat} :
    ∀ {l pos : Nat}, 1 ≤ d → d ≤ pos → pos + l ≤ block.length →
      (∀ k < l, block.get? (pos - d + k) = block.get? (pos + k)) →
      refCopy (block.take pos) d l = block.take (pos + l) := by
  intro l
  induction l with
  | zero => intro pos _ _ _ _; simp [refCopy]
  | succ l ih =>
    intro pos hd1 hd2 hlen heq
    have hposlt : pos < block.length := by omega
    have htklen : (block.take pos).length = pos := by
      rw [List.length_take]; omega
    have hbyte : (block.take pos).getD ((block.take pos).length - d) 0 = block.getD pos 0 := by
      rw [htklen, List.getD_eq_getElem?_getD, List.getD_eq_getElem?_getD, List.getElem?_take,
        if_pos (by omega : pos - d < pos)]
      have h0 := heq 0 (by omega)
      simp only [Nat.add_zero] at h0
      rw [← List.get?_eq_getElem?, ← List.get?_eq_getElem?, h0]
    have hstep : block.take pos ++ [(block.take pos).getD ((block.take pos).length - d) 0] =
        block.take (pos + 1) := by
      rw [hbyte, List.take_succ, List.getD_eq_getElem?_getD,
        List.getElem?_eq_getElem hposlt]
      simp
    rw [refCopy, hstep, ih hd1 (by omega) (by omega) ?_]
    · congr 1; omega
    · intro k hk
      have := heq (k + 1) (by omega)
      have h1 : pos - d + (k + 1) = pos + 1 - d + k := by omega
      have h2 : pos + (k + 1) = pos + 1 + k := by omega
      rw [h1, h2] at this
      exact this

theorem decodeAux_tokenizeAux {level : Nat} {block : List Nat} :
    ∀ {fuel pos : Nat}, block.length - pos ≤ fuel → pos ≤ block.length →
      decodeAux (tokenizeAux level block fuel pos) (block.take pos) = some block := by
  intro fuel
  induction fuel with
  | zero =>
    intro pos hf hp
    have : pos = block.length := by omega
    subst this
    simp [tokenizeAux, decodeAux, List.take_length]
  | succ fuel ih =>
    intro pos hf hp
    by_cases hlt : pos < block.length
    · rw [tokenizeAux, if_pos hlt]
      rcases hm : findMatch level block pos with _ | ⟨d, l⟩
      · rw [decodeAux]
        have hstep : block.take pos ++ [block.getD pos 0] = block.take (pos + 1) := by
          rw [List.take_succ, List.getD_eq_getElem?_getD, List.getElem?_eq_getElem hlt]
          simp
        rw [hstep]
        exact ih (by omega) (by omega)
      · obtain ⟨h1, h2, h3, h4, h5⟩ := findMatch_spec (by omega) hm
        have hl1 : 1 ≤ l := le_trans (by decide) h3
        rw [decodeAux, if_pos ⟨h1, by rw [List.length_take]; omega⟩,
          refCopy_take h1 h2 h4 h5]
        exact ih (by omega) (by omega)
    · rw [tokenizeAux, if_neg hlt]
      have : pos = block.length := by omega
      subst this
      simp [decodeAux, List.take_length]

/-- Decoding the tokenizer's output reproduces the block. -/
theorem decodeAux_tokenize (level : Nat) (block : List Nat) :
    decodeAux (tokenize level block) [] = some block := by
  have := @decodeAux_tokenizeAux level block block.length 0 (by omega) (by omega)
  simpa [tokenize] using this

/-! ### Serialization of the token stream -/

/-- Well-formed token: field values fit the wire encoding. -/
def TokenWF : Token → Prop
  | Token.lit b => b < 256
  | Token.ref d l => d < 65536 ∧ l < 65536

theorem tokenizeAux_wf {level : Nat} {block : List Nat}
    (hbytes : ∀ b ∈ block, b < 256) (hsize : block.length ≤ kBlockSize) :
    ∀ {fuel pos : Nat} {t : Token}, t ∈ tokenizeAux level block fuel pos → TokenWF t := by
  intro fuel
  induction fuel with
  | zero => intro pos t ht; simp [tokenizeAux] at ht
  | succ fuel ih =>
    intro pos t ht
    rw [tokenizeAux] at ht
    split at ht
    · rename_i hlt
      rcases hm : findMatch level block pos with _ | ⟨d, l⟩ <;> rw [hm] at ht <;>
        rcases List.mem_cons.mp ht with hhd | htl
      · subst hhd
        have : block.getD pos 0 ∈ block := by
          rw [List.getD_eq_getElem?_getD, List.getElem?_eq_getElem hlt]
          exact List.get_mem block pos hlt
        exact hbytes _ this
      · exact ih htl
      · subst hhd
        obtain ⟨h1, h2, _, h4, _⟩ := findMatch_spec (by omega) hm
        have : kBlockSize = 65536 := rfl
        exact ⟨by omega, by omega⟩
      · exact ih htl
    · simp at ht

theorem encodeToken_bytes {t : Token} : ∀ b ∈ encodeToken t, b < 256 := by
  cases t with
  | lit b => simp [encodeToken]; omega
  | ref d l => simp [encodeToken]; refine ⟨by omega, by omega, by omega, by omega⟩

theorem encodeTokens_bytes {ts : List Token} : ∀ b ∈ encodeTokens ts, b < 256 := by
  induction ts with
  | nil => simp [encodeTokens]
  | cons t ts ih =>
    intro b hb
    rw [encodeTokens] at hb
    rcases List.mem_append.mp hb with h | h
    · exact encodeToken_bytes b h
    · exact ih b h

theorem decodeTokenBytes_encodeTokens {ts : List Token}
    (hwf : ∀ t ∈ ts, TokenWF t) : decodeTokenBytes (encodeTokens ts) = some ts := by
  induction ts with
  | nil => simp [encodeTokens, decodeTokenBytes]
  | cons t ts ih =>
    have htl := ih (fun x hx => hwf x (by simp [hx]))
    have hhd := hwf t (by simp)
    cases t with
    | lit b =>
      have hb : b < 256 := hhd
      rw [encodeTokens, encodeToken, List.cons_append, List.cons_append,
        List.nil_append, decodeTokenBytes, htl, Nat.mod_eq_of_lt hb]
    | ref d l =>
      obtain ⟨hd, hl⟩ := hhd
      rw [encodeTokens, encodeToken]
      simp only [List.cons_append, List.nil_append]
      rw [decodeTokenBytes, htl]
      have hdeq : d % 256 + 256 * (d / 256 % 256) = d := by omega
      have hleq : l % 256 + 256 * (l / 256 % 256) = l := by omega
      rw [hdeq, hleq]

/-! ### Per-block payload round-trip -/

theorem rawPayloadOf_bytes {level : Nat} {block : List Nat}
    (hbytes : ∀ b ∈ block, b < 256) :
    ∀ b ∈ rawPayloadOf level block, b < 256 := by
  intro b hb
  rw [rawPayloadOf] at hb
  split at hb <;> rcases List.mem_cons.mp hb with h | h
  · omega
  · exact encodeTokens_bytes b h
  · omega
  · exact hbytes b h

theorem compressBlock_bytes {level flags : Nat} {block : List Nat}
    (hbytes : ∀ b ∈ block, b < 256) :
    ∀ b ∈ compressBlock level flags block, b < 256 := by
  intro b hb
  rw [compressBlock] at hb
  split at hb
  · rcases List.mem_append.mp hb with h | h
    · exact rawPayloadOf_bytes hbytes b h
    · have : b = checksumOf (rawPayloadOf level block) := by simpa using h
      rw [this, checksumOf]
      omega
  · exact rawPayloadOf_bytes hbytes b hb

theorem rawPayloadOf_length {level : Nat} {block : List Nat} :
    (rawPayloadOf level block).length ≤ block.length + 1 := by
  rw [rawPayloadOf]
  split
  · rename_i h
    simp only [List.length_cons] at h ⊢
    omega
  · simp

theorem compressBlock_length {level flags : Nat} {block : List Nat} :
    (compressBlock level flags block).length ≤ block.length + 2 := by
  rw [compressBlock]
  have := @rawPayloadOf_length level block
  split
  · simp only [List.length_append, List.length_cons, List.length_nil]
    omega
  · omega

theorem stripChecksum_append (p : List Nat) :
    stripChecksum (p ++ [checksumOf p]) = some p := by
  rw [stripChecksum, List.getLast?_concat, Option.some_bind, List.dropLast_concat,
    if_pos rfl]

theorem decodeCore_rawPayloadOf {level : Nat} {block : List Nat}
    (hbytes : ∀ b ∈ block, b < 256) (hsize : block.length ≤ kBlockSize) :
    decodeCore block.length (rawPayloadOf level block) = some block := by
  rw [rawPayloadOf]
  split
  · rw [decodeCore,
      @decodeTokenBytes_encodeTokens (tokenize level block)
        (fun t ht => tokenizeAux_wf hbytes hsize ht)]
    simp [decodeAux_tokenize]
  · rw [decodeCore]
    simp

/-- Decoding a block payload produced by the compressor recovers the block. -/
theorem decodeBlockPayload_compressBlock {level flags : Nat} {block : List Nat}
    (hbytes : ∀ b ∈ block, b < 256) (hsize : block.length ≤ kBlockSize) :
    decodeBlockPayload flags block.length (compressBlock level flags block) = some block := by
  rw [decodeBlockPayload, compressBlock]
  by_cases hflag : flags % 2 = 1
  · rw [if_pos hflag, if_pos hflag, stripChecksum_append]
    simpa using decodeCore_rawPayloadOf hbytes hsize
  · rw [if_neg hflag, if_neg hflag]
    simpa using @decodeCore_rawPayloadOf level block hbytes hsize

/-! ### Block segmentation -/

theorem chunksByAux_flatten {c : Nat} :
    ∀ {fuel : Nat} {l : List Nat}, l.length ≤ fuel → (chunksByAux c fuel l).flatten = l := by
  intro fuel
  induction fuel with
  | zero =>
    intro l hl
    have : l = [] := List.length_eq_zero.mp (by omega)
    subst this
    rfl
  | succ fuel ih =>
    intro l hl
    cases l with
    | nil => rfl
    | cons a as =>
      rw [chunksByAux, List.flatten_cons, ih ?_, List.take_append_drop]
      rw [List.length_drop]
      simp only [List.length_cons] at hl ⊢
      omega

theorem chunksByAux_mem {c : Nat} :
    ∀ {fuel : Nat} {l b : List Nat}, b ∈ chunksByAux c fuel l →
      b.length ≤ c + 1 ∧ ∀ x ∈ b, x ∈ l := by
  intro fuel
  induction fuel with
  | zero => intro l b hb; simp [chunksByAux] at hb
  | succ fuel ih =>
    intro l b hb
    cases l with
    | nil => simp [chunksByAux] at hb
    | cons a as =>
      rw [chunksByAux] at hb
      rcases List.mem_cons.mp hb with hhd | htl
      · subst hhd
        constructor
        · rw [List.length_take]; omega
        · exact fun x hx => List.take_subset _ _ hx
      · obtain ⟨h1, h2⟩ := ih htl
        exact ⟨h1, fun x hx => List.drop_subset _ _ (h2 x hx)⟩

theorem blocksOf_flatten (l : List Nat) : (blocksOf l).flatten = l :=
  chunksByAux_flatten (le_refl _)

theorem blocksOf_mem {l b : List Nat} (hb : b ∈ blocksOf l) :
    b.length ≤ kBlockSize ∧ ∀ x ∈ b, x ∈ l := by
  obtain ⟨h1, h2⟩ := chunksByAux_mem hb
  exact ⟨by simpa [kBlockSize] using h1, h2⟩

theorem blocksOf_length (l : List Nat) : (blocksOf l).length = numBlocks l.length := by
  have haux : ∀ fuel (m : List Nat), m.length ≤ fuel →
      (chunksByAux 65535 fuel m).length = (m.length + 65535) / 65536 := by
    intro fuel
    induction fuel with
    | zero =>
      intro m hm
      have : m = [] := List.length_eq_zero.mp (by omega)
      subst this
      simp [chunksByAux]
    | succ fuel ih =>
      intro m hm
      cases m with
      | nil => simp [chunksByAux]
      | cons a as =>
        rw [chunksByAux, List.length_cons, ih _ ?_]
        · rw [List.length_drop]
          simp only [List.length_cons]
          omega
        · rw [List.length_drop]
          simp only [List.length_cons] at hm ⊢
          omega
  have hb : kBlockSize - 1 = 65535 := rfl
  have hn : numBlocks l.length = (l.length + 65535) / 65536 := rfl
  rw [blocksOf, hb, hn, haux _ _ (le_refl _)]

/-! ### Header round-trip -/

theorem rd32_le32 {n : Nat} (h : n < 4294967296) :
    rd32 (n % 256) (n / 256 % 256) (n / 65536 % 256) (n / 16777216 % 256) = n := by
  rw [rd32]
  omega

theorem parseRecs_recsBytes :
    ∀ {recs : List (Nat × Nat)} {rest : List Nat},
      (∀ r ∈ recs, r.1 < 4294967296 ∧ r.2 < 4294967296) →
      parseRecs recs.length (recsBytes recs ++ rest) = some (recs, rest) := by
  intro recs
  induction recs with
  | nil => intro rest _; rfl
  | cons r rs ih =>
    intro rest hbound
    obtain ⟨u, c⟩ := r
    have hu := (hbound (u, c) (by simp)).1
    have hc := (hbound (u, c) (by simp)).2
    rw [List.length_cons, recsBytes, le32, le32]
    simp only [List.cons_append, List.nil_append, List.append_assoc]
    rw [parseRecs, ih (fun x hx => hbound x (by simp [hx])), rd32_le32 hu, rd32_le32 hc]

theorem parseHeader_headerBytes {flags : Nat} {recs : List (Nat × Nat)} {rest : List Nat}
    (hfl : flags < 4294967296) (hcount : recs.length < 4294967296)
    (hbound : ∀ r ∈ recs, r.1 < 4294967296 ∧ r.2 < 4294967296) :
    parseHeader (headerBytes flags recs ++ rest) = some (flags, recs, rest) := by
  rw [headerBytes, le32, le32]
  simp only [List.cons_append, List.nil_append, List.append_assoc]
  rw [parseHeader, rd32_le32 hcount, parseRecs_recsBytes hbound, rd32_le32 hfl]

theorem recsBytes_length (recs : List (Nat × Nat)) :
    (recsBytes recs).length = 8 * recs.length := by
  induction recs with
  | nil => rfl
  | cons r rs ih =>
    obtain ⟨u, c⟩ := r
    rw [recsBytes, le32, le32]
    simp only [List.length_append, List.length_cons, ih, List.length_nil]
    omega

theorem headerBytes_length (flags : Nat) (recs : List (Nat × Nat)) :
    (headerBytes flags recs).length = 11 + 8 * recs.length := by
  rw [headerBytes, le32, le32]
  simp only [List.length_cons, List.length_append, recsBytes_length, List.length_nil]
  omega

/-! ### Payload split and block decode -/

theorem splitPayloads_flatten :
    ∀ {recs : List (Nat × Nat)} {ps : List (List Nat)},
      recs.map Prod.snd = ps.map List.length →
      splitPayloads recs ps.flatten = some ps := by
  intro recs
  induction recs with
  | nil =>
    intro ps hlen
    cases ps with
    | nil => rfl
    | cons p ps => simp at hlen
  | cons r rs ih =>
    intro ps hlen
    cases ps with
    | nil => simp at hlen
    | cons p ps =>
      obtain ⟨u, c⟩ := r
      simp only [List.map_cons, List.cons.injEq] at hlen
      obtain ⟨hc, htl⟩ := hlen
      rw [List.flatten_cons, splitPayloads, if_pos ?_]
      · have htake : (p ++ ps.flatten).take c = p := by
          rw [hc]; exact List.take_left p ps.flatten
        have hdrop : (p ++ ps.flatten).drop c = ps.flatten := by
          rw [hc]; exact List.drop_left p ps.flatten
        rw [htake, hdrop, ih htl]
      · rw [List.length_append, hc]; omega

theorem decodeCore_length {u : Nat} {core out : List Nat}
    (h : decodeCore u core = some out) : out.length = u := by
  cases core with
  | nil => rw [decodeCore] at h; cases h
  | cons m body =>
    rw [decodeCore] at h
    by_cases h0 : m = 0
    · rw [if_pos h0] at h
      split at h
      · rename_i hlen; cases h; assumption
      · cases h
    · rw [if_neg h0] at h
      by_cases h1 : m = 1
      · rw [if_pos h1] at h
        rcases htb : decodeTokenBytes body with _ | ts <;> rw [htb] at h
        · cases h
        · rw [Option.some_bind] at h
          rcases hda : decodeAux ts [] with _ | o <;> rw [hda] at h
          · cases h
          · rw [Option.some_bind] at h
            split at h
            · rename_i hlen; cases h; assumption
            · cases h
      · rw [if_neg h1] at h
        cases h

theorem decodeBlockPayload_length {flags u : Nat} {payload out : List Nat}
    (h : decodeBlockPayload flags u payload = some out) : out.length = u := by
  rw [decodeBlockPayload] at h
  rcases hstrip : (if flags % 2 = 1 then stripChecksum payload else some payload) with _ | core <;>
    rw [hstrip] at h
  · cases h
  · rw [Option.some_bind] at h
    exact decodeCore_length h

theorem decodeBlocks_map_compressBlock {level flags : Nat} :
    ∀ {blocks : List (List Nat)},
      (∀ b ∈ blocks, (∀ x ∈ b, x < 256) ∧ b.length ≤ kBlockSize) →
      decodeBlocks flags (recsOf level flags blocks)
        (blocks.map (compressBlock level flags)) = some blocks := by
  intro blocks
  induction blocks with
  | nil => intro _; rfl
  | cons b bs ih =>
    intro hb
    obtain ⟨hbytes, hsize⟩ := hb b (by simp)
    rw [recsOf, List.map_cons, List.map_cons, decodeBlocks,
      decodeBlockPayload_compressBlock hbytes hsize, Option.some_bind]
    have := ih (fun x hx => hb x (by simp [hx]))
    rw [recsOf] at this
    rw [this, Option.some_bind]

theorem decodeBlocks_lengths {flags : Nat} :
    ∀ {recs : List (Nat × Nat)} {ps slices : List (List Nat)},
      decodeBlocks flags recs ps = some slices →
      recs.map Prod.fst = slices.map List.length := by
  intro recs
  induction recs with
  | nil =>
    intro ps slices h
    cases ps with
    | nil => rw [decodeBlocks] at h; cases h; rfl
    | cons p ps => rw [decodeBlocks] at h; cases h
  | cons r rs ih =>
    intro ps slices h
    obtain ⟨u, c⟩ := r
    cases ps with
    | nil => rw [decodeBlocks] at h; cases h
    | cons p ps =>
      rw [decodeBlocks] at h
      rcases hdp : decodeBlockPayload flags u p with _ | s <;> rw [hdp] at h
      · cases h
      · rw [Option.some_bind] at h
        rcases hds : decodeBlocks flags rs ps with _ | ss <;> rw [hds] at h
        · cases h
        · rw [Option.some_bind] at h
          cases h
          rw [List.map_cons, List.map_cons, ih hds,
            decodeBlockPayload_length hdp]

/-! ### Disjoint-offset writes -/

/-- Two writes own disjoint byte ranges of the output buffer. -/
def WDisj (w1 w2 : Nat × List Nat) : Prop :=
  w1.1 + w1.2.length ≤ w2.1 ∨ w2.1 + w2.2.length ≤ w1.1

theorem WDisj_symm {w1 w2 : Nat × List Nat} (h : WDisj w1 w2) : WDisj w2 w1 :=
  Or.symm h

theorem take_append_length {A B : List Nat} {n : Nat} (h : A.length = n) :
    (A ++ B).take n = A := by
  subst h; exact List.take_left A B

theorem drop_append_length {A B : List Nat} {n : Nat} (h : A.length = n) :
    (A ++ B).drop n = B := by
  subst h; exact List.drop_left A B

theorem writeAt_length {buf bytes : List Nat} {off : Nat}
    (h : off + bytes.length ≤ buf.length) : (writeAt buf off bytes).length = buf.length := by
  rw [writeAt]
  simp only [List.length_append, List.length_take, List.length_drop]
  omega

theorem getElem?_writeAt {buf bytes : List Nat} {off i : Nat}
    (h : off + bytes.length ≤ buf.length) :
    (writeAt buf off bytes)[i]? =
      if off ≤ i ∧ i < off + bytes.length then bytes[i - off]? else buf[i]? := by
  have hto : (buf.take off).length = off := by rw [List.length_take]; omega
  rw [writeAt, List.getElem?_append, hto]
  by_cases h1 : i < off
  · rw [if_pos h1, List.getElem?_take, if_pos h1, if_neg (by omega)]
  · rw [if_neg h1, List.getElem?_append]
    by_cases h2 : i - off < bytes.length
    · rw [if_pos h2, if_pos (by omega)]
    · rw [if_neg h2, List.getElem?_drop, if_neg (by omega)]
      congr 1
      omega

theorem writeAt_comm {buf b1 b2 : List Nat} {o1 o2 : Nat}
    (h1 : o1 + b1.length ≤ buf.length) (h2 : o2 + b2.length ≤ buf.length)
    (hd : WDisj (o1, b1) (o2, b2)) :
    writeAt (writeAt buf o1 b1) o2 b2 = writeAt (writeAt buf o2 b2) o1 b1 := by
  rcases hd with hd | hd <;>
  · apply List.ext_getElem?
    intro n
    rw [getElem?_writeAt (by rw [writeAt_length h1]; omega),
      getElem?_writeAt h1,
      getElem?_writeAt (by rw [writeAt_length h2]; omega),
      getElem?_writeAt h2]
    simp only [WDisj] at hd
    split_ifs <;> first | rfl | (exfalso; omega)

theorem applyWrites_length :
    ∀ {ws : List (Nat × List Nat)} {buf : List Nat},
      (∀ w ∈ ws, w.1 + w.2.length ≤ buf.length) →
      (applyWrites ws buf).length = buf.length := by
  intro ws
  induction ws with
  | nil => intro buf _; rfl
  | cons w ws ih =>
    intro buf hin
    obtain ⟨o, bs⟩ := w
    have hw := hin (o, bs) (by simp)
    rw [applyWrites, ih ?_, writeAt_length hw]
    intro x hx
    rw [writeAt_length hw]
    exact hin x (by simp [hx])

/-- Disjoint in-range writes give the same buffer in any application
order: the reassembled output does not depend on completion order. -/
theorem applyWrites_perm {ws1 ws2 : List (Nat × List Nat)} (hperm : ws1.Perm ws2) :
    ∀ buf : List Nat, (∀ w ∈ ws1, w.1 + w.2.length ≤ buf.length) →
      ws1.Pairwise WDisj → applyWrites ws1 buf = applyWrites ws2 buf := by
  induction hperm with
  | nil => intro buf _ _; rfl
  | cons x hp ih =>
    intro buf hin hpw
    obtain ⟨o, bs⟩ := x
    have hx := hin (o, bs) (by simp)
    rw [applyWrites, applyWrites]
    apply ih
    · intro w hw
      rw [writeAt_length hx]
      exact hin w (by simp [hw])
    · exact hpw.sublist (List.sublist_cons_self _ _)
  | swap x y l =>
    intro buf hin hpw
    obtain ⟨o1, b1⟩ := x
    obtain ⟨o2, b2⟩ := y
    have h2 := hin (o2, b2) (by simp)
    have h1 := hin (o1, b1) (by simp)
    have hd : WDisj (o2, b2) (o1, b1) :=
      (List.pairwise_cons.mp hpw).1 (o1, b1) (by simp)
    rw [applyWrites, applyWrites, applyWrites, applyWrites, writeAt_comm h2 h1 hd]
  | trans h12 h23 ih12 ih23 =>
    intro buf hin hpw
    rw [ih12 buf hin hpw, ih23 buf ?_ ?_]
    · intro w hw
      exact hin w (h12.mem_iff.mpr hw)
    · exact hpw.perm h12 WDisj_symm

/-- In-order writes at the precomputed offsets tile the buffer with the
slices, in original block order. -/
theorem applyWrites_zip_offsets :
    ∀ {recs : List (Nat × Nat)} {slices : List (List Nat)} {off : Nat} {buf : List Nat},
      recs.map Prod.fst = slices.map List.length →
      buf.length = off + (slices.map List.length).sum →
      applyWrites ((offsets off recs).zip slices) buf = buf.take off ++ slices.flatten := by
  intro recs
  induction recs with
  | nil =>
    intro slices off buf hm hlen
    cases slices with
    | nil =>
      have hoff : off = buf.length := by simp at hlen; omega
      rw [offsets]
      simp [applyWrites, hoff, List.take_length]
    | cons s ss => simp at hm
  | cons r rs ih =>
    intro slices off buf hm hlen
    obtain ⟨u, c⟩ := r
    cases slices with
    | nil => simp at hm
    | cons s ss =>
      simp only [List.map_cons, List.cons.injEq] at hm
      obtain ⟨hu, htl⟩ := hm
      have hsum : (List.map List.length (s :: ss)).sum =
          s.length + (ss.map List.length).sum := by simp
      rw [hsum] at hlen
      have hrange : off + s.length ≤ buf.length := by omega
      have hA : (buf.take off).length = off := by rw [List.length_take]; omega
      rw [offsets, List.zip_cons_cons, applyWrites, ih htl ?_]
      · have htake : (writeAt buf off s).take (off + u) = buf.take off ++ s := by
          rw [hu, writeAt, List.take_add, take_append_length hA,
            drop_append_length hA, take_append_length rfl]
        rw [htake, List.flatten_cons, List.append_assoc]
      · rw [writeAt_length hrange]
        omega

/-! ### The worker schedule is a permutation of the in-order writes -/

theorem flatten_reverse_perm (ls : List (List (Nat × List Nat))) :
    ls.reverse.flatten.Perm ls.flatten := by
  induction ls with
  | nil => exact List.Perm.refl _
  | cons a ls ih =>
    rw [List.reverse_cons, List.flatten_append, List.flatten_cons]
    have h1 : (ls.reverse.flatten ++ [a].flatten).Perm (ls.flatten ++ a) := by
      simpa using ih.append_right a
    exact h1.trans List.perm_append_comm

theorem range_chunks_flatten {ws : List (Nat × List Nat)} {per w : Nat}
    (h : ws.length ≤ w * per) :
    ((List.range w).map fun j => (ws.drop (j * per)).take per).flatten = ws := by
  have haux : ∀ v : Nat,
      ((List.range v).map fun j => (ws.drop (j * per)).take per).flatten = ws.take (v * per) := by
    intro v
    induction v with
    | zero => simp
    | succ v ih =>
      rw [List.range_succ, List.map_append, List.flatten_append, ih]
      have harith : (v + 1) * per = v * per + per := by ring
      rw [harith, List.take_add]
      simp
  rw [haux w, List.take_of_length_le h]

theorem scheduleWrites_perm (numWorkers : Nat) (ws : List (Nat × List Nat)) :
    (scheduleWrites numWorkers ws).Perm ws := by
  have hw : 1 ≤ max 1 numWorkers := le_max_left _ _
  have hcov : ws.length ≤
      max 1 numWorkers * ((ws.length + max 1 numWorkers - 1) / max 1 numWorkers) := by
    have hdm := Nat.div_add_mod (ws.length + max 1 numWorkers - 1) (max 1 numWorkers)
    have hlt : (ws.length + max 1 numWorkers - 1) % max 1 numWorkers < max 1 numWorkers :=
      Nat.mod_lt _ (by omega)
    omega
  simp only [scheduleWrites]
  exact (flatten_reverse_perm _).trans (by rw [range_chunks_flatten hcov])

/-! ### Offsets are increasing, so the writes are pairwise disjoint -/

theorem zip_offsets_bound :
    ∀ {recs : List (Nat × Nat)} {slices : List (List Nat)} {acc : Nat},
      recs.map Prod.fst = slices.map List.length →
      ∀ wr ∈ (offsets acc recs).zip slices,
        acc ≤ wr.1 ∧ wr.1 + wr.2.length ≤ acc + (recs.map Prod.fst).sum := by
  intro recs
  induction recs with
  | nil => intro slices acc _ wr hwr; simp [offsets] at hwr
  | cons r rs ih =>
    intro slices acc hm wr hwr
    obtain ⟨u, c⟩ := r
    cases slices with
    | nil => simp at hm
    | cons s ss =>
      simp only [List.map_cons, List.cons.injEq] at hm
      obtain ⟨hu, htl⟩ := hm
      rw [offsets, List.zip_cons_cons] at hwr
      rcases List.mem_cons.mp hwr with hhd | htlmem
      · subst hhd
        simp only [List.map_cons, List.sum_cons]
        omega
      · obtain ⟨hlow, hhigh⟩ := ih htl wr htlmem
        simp only [List.map_cons, List.sum_cons]
        omega

theorem zip_offsets_pairwise :
    ∀ {recs : List (Nat × Nat)} {slices : List (List Nat)} {acc : Nat},
      recs.map Prod.fst = slices.map List.length →
      ((offsets acc recs).zip slices).Pairwise WDisj := by
  intro recs
  induction recs with
  | nil => intro slices acc _; simp [offsets]
  | cons r rs ih =>
    intro slices acc hm
    obtain ⟨u, c⟩ := r
    cases slices with
    | nil => simp at hm
    | cons s ss =>
      simp only [List.map_cons, List.cons.injEq] at hm
      obtain ⟨hu, htl⟩ := hm
      rw [offsets, List.zip_cons_cons]
      refine List.pairwise_cons.mpr ⟨?_, ih htl⟩
      intro wr hwr
      have := (zip_offsets_bound htl wr hwr).1
      left
      simp only
      omega

/-- The scheduled scatter equals the in-order scatter: worker count and
completion order do not change the output. -/
theorem applyWrites_schedule {recs : List (Nat × Nat)} {slices : List (List Nat)}
    {numWorkers outputSize : Nat}
    (hm : recs.map Prod.fst = slices.map List.length)
    (hsum : (recs.map Prod.fst).sum = outputSize) :
    applyWrites (scheduleWrites numWorkers ((offsets 0 recs).zip slices))
        (List.replicate outputSize 0) = slices.flatten := by
  have hin : ∀ wr ∈ (offsets 0 recs).zip slices,
      wr.1 + wr.2.length ≤ (List.replicate outputSize 0).length := by
    intro wr hwr
    have := (zip_offsets_bound hm wr hwr).2
    rw [List.length_replicate]
    omega
  have hperm := scheduleWrites_perm numWorkers ((offsets 0 recs).zip slices)
  have hpw : ((offsets 0 recs).zip slices).Pairwise WDisj := zip_offsets_pairwise hm
  have heq := applyWrites_perm hperm.symm (List.replicate outputSize 0) hin hpw
  rw [← heq, applyWrites_zip_offsets hm ?_]
  · simp
  · rw [List.length_replicate, ← hm, hsum]
    omega

/-! ### End-to-end stream lemmas -/

theorem recsOf_map_snd (level flags : Nat) (blocks : List (List Nat)) :
    (recsOf level flags blocks).map Prod.snd =
      (blocks.map (compressBlock level flags)).map List.length := by
  simp [recsOf, List.map_map, Function.comp_def]

theorem recsOf_map_fst (level flags : Nat) (blocks : List (List Nat)) :
    (recsOf level flags blocks).map Prod.fst = blocks.map List.length := by
  simp [recsOf, List.map_map, Function.comp_def]

theorem recsOf_bounds {level flags : Nat} {blocks : List (List Nat)}
    (hsz : ∀ b ∈ blocks, b.length ≤ kBlockSize) :
    ∀ r ∈ recsOf level flags blocks, r.1 < 4294967296 ∧ r.2 < 4294967296 := by
  intro r hr
  rw [recsOf, List.mem_map] at hr
  obtain ⟨b, hb, hrb⟩ := hr
  subst hrb
  have h1 := hsz b hb
  have h2 := @compressBlock_length level flags b
  have hk : kBlockSize = 65536 := rfl
  exact ⟨by omega, by omega⟩

/-- Compress-then-decompress gives back the input, for every level, every
flag setting and every worker count. -/
theorem decompressStream_compressStream {B : List Nat} {level flags w : Nat}
    (hbytes : ∀ b ∈ B, b < 256) (hlen : B.length ≤ 2 ^ 40) (hfl : flags < 4294967296) :
    decompressStream (compressStream level flags B) B.length w = some B := by
  have hblk : ∀ b ∈ blocksOf B, (∀ x ∈ b, x < 256) ∧ b.length ≤ kBlockSize := fun b hb =>
    ⟨fun x hx => hbytes x ((blocksOf_mem hb).2 x hx), (blocksOf_mem hb).1⟩
  have hsz : ∀ b ∈ blocksOf B, b.length ≤ kBlockSize := fun b hb => (hblk b hb).2
  have hcount : (recsOf level flags (blocksOf B)).length < 4294967296 := by
    rw [recsOf, List.length_map, blocksOf_length]
    have : numBlocks B.length = (B.length + 65535) / 65536 := rfl
    omega
  have hsumlen : ((recsOf level flags (blocksOf B)).map Prod.fst).sum = B.length := by
    rw [recsOf_map_fst, ← List.length_flatten, blocksOf_flatten]
  rw [compressStream, decompressStream,
    parseHeader_headerBytes hfl hcount (recsOf_bounds hsz)]
  simp only [Option.some_bind]
  rw [splitPayloads_flatten (recsOf_map_snd level flags (blocksOf B))]
  simp only [Option.some_bind]
  rw [decodeBlocks_map_compressBlock hblk]
  simp only [Option.some_bind]
  rw [if_pos hsumlen,
    applyWrites_schedule (by rw [recsOf_map_fst]) hsumlen, blocksOf_flatten]

theorem compressStream_length (level flags : Nat) (B : List Nat) :
    (compressStream level flags B).length ≤ GDeflate.CompressBound B.length := by
  have haux : ∀ blocks : List (List Nat),
      ((blocks.map (compressBlock level flags)).map List.length).sum ≤
        (blocks.map List.length).sum + 2 * blocks.length := by
    intro blocks
    induction blocks with
    | nil => simp
    | cons b bs ih =>
      simp only [List.map_cons, List.sum_cons, List.length_cons]
      have := @compressBlock_length level flags b
      omega
  have hsum : ((blocksOf B).map List.length).sum = B.length := by
    rw [← List.length_flatten, blocksOf_flatten]
  have hcnt : (blocksOf B).length = numBlocks B.length := blocksOf_length B
  have hbound := haux (blocksOf B)
  rw [compressStream, List.length_append, headerBytes_length, List.length_flatten,
    recsOf, List.length_map]
  rw [hsum, hcnt] at hbound
  rw [hcnt, GDeflate.CompressBound]
  omega

/-! ### Back-reference validity inside every block -/

theorem tokenizeAux_valid {level : Nat} {block : List Nat} :
    ∀ {fuel pos : Nat}, pos ≤ block.length →
      tokensValidFrom (tokenizeAux level block fuel pos) pos = true := by
  intro fuel
  induction fuel with
  | zero => intro pos _; rfl
  | succ fuel ih =>
    intro pos hpos
    rw [tokenizeAux]
    by_cases hlt : pos < block.length
    · rw [if_pos hlt]
      rcases hm : findMatch level block pos with _ | ⟨d, l⟩
      · rw [tokensValidFrom]
        exact ih (by omega)
      · obtain ⟨h1, h2, h3, h4, _⟩ := findMatch_spec (by omega) hm
        rw [tokensValidFrom]
        simp only [Bool.and_eq_true, decide_eq_true_eq]
        exact ⟨⟨h1, h2, h3⟩, ih (by omega)⟩
    · rw [if_neg hlt]
      rfl

theorem tokenize_valid (level : Nat) (block : List Nat) :
    tokensValidFrom (tokenize level block) 0 = true :=
  tokenizeAux_valid (by omega)

/-! ### Worker-count invariance for arbitrary streams -/

theorem decompressStream_workers (stream : List Nat) (outputSize w : Nat) :
    decompressStream stream outputSize w = decompressStream stream outputSize 1 := by
  rw [decompressStream, decompressStream]
  rcases hph : parseHeader stream with _ | fr
  · rfl
  · simp only [Option.some_bind]
    rcases hsp : splitPayloads fr.2.1 fr.2.2 with _ | payloads
    · rfl
    · simp only [Option.some_bind]
      rcases hdb : decodeBlocks fr.1 fr.2.1 payloads with _ | slices
      · rfl
      · simp only [Option.some_bind]
        by_cases hsum : (fr.2.1.map Prod.fst).sum = outputSize
        · rw [if_pos hsum, if_pos hsum]
          have hm := decodeBlocks_lengths hdb
          rw [applyWrites_schedule hm hsum, applyWrites_schedule hm hsum]
        · rw [if_neg hsum, if_neg hsum]

/-! ### Single-byte corruption of a checksummed payload is detected -/

theorem set_getD_self {l : List Nat} {j : Nat} (h : j < l.length) :
    l.set j (l.getD j 0) = l := by
  apply List.ext_getElem?
  intro n
  rw [List.getElem?_set]
  by_cases hj : j = n
  · subst hj
    rw [if_pos rfl, if_pos h, List.getD_eq_getElem?_getD, List.getElem?_eq_getElem h]
    rfl
  · rw [if_neg hj]

theorem setList_getD_self {l : List (List Nat)} {j : Nat} (h : j < l.length) :
    (l.map List.length).set j ((l.getD j []).length) = l.map List.length := by
  have hlen : (l.getD j []).length = (l.map List.length).getD j 0 := by
    rw [List.getD_eq_getElem?_getD, List.getD_eq_getElem?_getD, List.getElem?_map,
      List.getElem?_eq_getElem h]
    rfl
  rw [hlen, set_getD_self (by rw [List.length_map]; exact h)]

theorem flatten_set :
    ∀ {ps : List (List Nat)} {q b2 : Nat}, q < ps.flatten.length →
      ∃ j loc, j < ps.length ∧ loc < (ps.getD j []).length ∧
        ps.flatten.set q b2 = (ps.set j ((ps.getD j []).set loc b2)).flatten ∧
        ps.flatten[q]? = (ps.getD j [])[loc]? := by
  intro ps
  induction ps with
  | nil => intro q b2 hq; simp at hq
  | cons p pr ih =>
    intro q b2 hq
    rw [List.flatten_cons] at hq
    by_cases hlt : q < p.length
    · refine ⟨0, q, by simp, by simpa using hlt, ?_, ?_⟩
      · rw [List.flatten_cons, List.set_append, if_pos (by omega)]
        rfl
      · rw [List.flatten_cons, List.getElem?_append, if_pos (by omega)]
        rfl
    · have hq2 : q - p.length < pr.flatten.length := by
        rw [List.length_append] at hq
        omega
      obtain ⟨j, loc, hj, hloc, heq, hget⟩ := @ih (q - p.length) b2 hq2
      refine ⟨j + 1, loc, by simpa using hj, by simpa using hloc, ?_, ?_⟩
      · rw [List.flatten_cons, List.set_append, if_neg (by omega), heq]
        rfl
      · rw [List.flatten_cons, List.getElem?_append, if_neg (by omega), hget]
        rfl

theorem checksumOf_set_ne {raw : List Nat} {i b2 : Nat} (hi : i < raw.length)
    (hbytes : ∀ x ∈ raw, x < 256) (hb2 : b2 < 256)
    (hne : raw[i]? ≠ some b2) :
    checksumOf (raw.set i b2) ≠ checksumOf raw := by
  have hsplit : raw = raw.take i ++ raw.getD i 0 :: raw.drop (i + 1) := by
    conv_lhs => rw [← List.take_append_drop i raw]
    rw [List.drop_eq_getElem_cons hi, List.getD_eq_getElem?_getD,
      List.getElem?_eq_getElem hi]
    rfl
  have hset : raw.set i b2 = raw.take i ++ b2 :: raw.drop (i + 1) := by
    rw [List.set_eq_take_append_cons_drop, if_pos hi]
  have ha : raw.getD i 0 < 256 := by
    apply hbytes
    rw [List.getD_eq_getElem?_getD, List.getElem?_eq_getElem hi]
    exact List.get_mem raw i hi
  have hane : raw.getD i 0 ≠ b2 := by
    intro hcontra
    apply hne
    rw [List.getElem?_eq_getElem hi, ← hcontra, List.getD_eq_getElem?_getD,
      List.getElem?_eq_getElem hi]
    rfl
  rw [checksumOf, checksumOf, hset]
  conv_rhs => rw [hsplit]
  rw [List.sum_append, List.sum_append, List.sum_cons, List.sum_cons]
  omega

theorem stripChecksum_set_ne {p : List Nat} {i b2 : Nat} (hi : i < p.length + 1)
    (hbytes : ∀ x ∈ p, x < 256) (hb2 : b2 < 256)
    (hne : (p ++ [checksumOf p])[i]? ≠ some b2) :
    stripChecksum ((p ++ [checksumOf p]).set i b2) = none := by
  by_cases hlt : i < p.length
  · have hset : (p ++ [checksumOf p]).set i b2 = p.set i b2 ++ [checksumOf p] := by
      rw [List.set_append, if_pos hlt]
    have hne2 : p[i]? ≠ some b2 := by
      rw [List.getElem?_append, if_pos hlt] at hne
      exact hne
    rw [hset, stripChecksum, List.getLast?_concat, Option.some_bind,
      List.dropLast_concat, if_neg (checksumOf_set_ne hlt hbytes hb2 hne2)]
  · have hieq : i = p.length := by omega
    subst hieq
    have hset : (p ++ [checksumOf p]).set p.length b2 = p ++ [b2] := by
      rw [List.set_append, if_neg (by omega), Nat.sub_self]
      rfl
    have hcne : checksumOf p ≠ b2 := by
      intro hcontra
      apply hne
      rw [List.getElem?_concat_length, hcontra]
    rw [hset, stripChecksum, List.getLast?_concat, Option.some_bind,
      List.dropLast_concat, if_neg hcne]

theorem decodeBlocks_none {flags : Nat} :
    ∀ {recs : List (Nat × Nat)} {ps : List (List Nat)} {j : Nat},
      recs.length = ps.length → j < ps.length →
      decodeBlockPayload flags (recs.getD j (0, 0)).1 (ps.getD j []) = none →
      decodeBlocks flags recs ps = none := by
  intro recs
  induction recs with
  | nil => intro ps j hlen hj _; rw [List.length_nil] at hlen; omega
  | cons r rs ih =>
    intro ps j hlen hj hfail
    obtain ⟨u, c⟩ := r
    cases ps with
    | nil => simp at hj
    | cons pp ppr =>
      cases j with
      | zero =>
        rw [decodeBlocks]
        have : decodeBlockPayload flags u pp = none := hfail
        rw [this, Option.none_bind]
      | succ j =>
        rw [decodeBlocks]
        rcases hdp : decodeBlockPayload flags u pp with _ | s
        · rw [Option.none_bind]
        · rw [Option.some_bind]
          have hrec : decodeBlocks flags rs ppr = none := by
            apply ih (by simpa using hlen) (by simpa using hj)
            exact hfail
          rw [hrec, Option.none_bind]

/-- With the checksum flag set, flipping any single byte inside the payload
area of a compressed stream makes decompression fail. -/
theorem decompress_corrupt {B : List Nat} {level flags p b2 : Nat}
    (hflag : flags % 2 = 1) (hfl : flags < 4294967296)
    (hbytes : ∀ b ∈ B, b < 256) (hlen : B.length ≤ 2 ^ 40)
    (hp : 11 + 8 * numBlocks B.length ≤ p)
    (hplt : p < (compressStream level flags B).length)
    (hb2 : b2 < 256)
    (hne : (compressStream level flags B)[p]? ≠ some b2) :
    ∀ outputSize w : Nat,
      decompressStream ((compressStream level flags B).set p b2) outputSize w = none := by
  intro outputSize w
  have hsz : ∀ b ∈ blocksOf B, b.length ≤ kBlockSize := fun b hb => (blocksOf_mem hb).1
  have hcount : (recsOf level flags (blocksOf B)).length < 4294967296 := by
    rw [recsOf, List.length_map, blocksOf_length]
    have : numBlocks B.length = (B.length + 65535) / 65536 := rfl
    omega
  have hhdrlen : (headerBytes flags (recsOf level flags (blocksOf B))).length =
      11 + 8 * numBlocks B.length := by
    rw [headerBytes_length, recsOf, List.length_map, blocksOf_length]
  have hq : p - (headerBytes flags (recsOf level flags (blocksOf B))).length <
      ((blocksOf B).map (compressBlock level flags)).flatten.length := by
    rw [compressStream, List.length_append] at hplt
    omega
  obtain ⟨j, loc, hj, hloc, heq, hget⟩ := @flatten_set
    ((blocksOf B).map (compressBlock level flags))
    (p - (headerBytes flags (recsOf level flags (blocksOf B))).length) b2 hq
  have hset : (compressStream level flags B).set p b2 =
      headerBytes flags (recsOf level flags (blocksOf B)) ++
        (((blocksOf B).map (compressBlock level flags)).set j
          ((((blocksOf B).map (compressBlock level flags)).getD j []).set loc b2)).flatten := by
    rw [compressStream, List.set_append, if_neg (by omega), ← heq]
  have hjb : j < (blocksOf B).length := by
    rw [List.length_map] at hj
    exact hj
  have hpj : ((blocksOf B).map (compressBlock level flags)).getD j [] =
      compressBlock level flags ((blocksOf B).getD j []) := by
    rw [List.getD_eq_getElem?_getD, List.getElem?_map, List.getD_eq_getElem?_getD,
      List.getElem?_eq_getElem hjb]
    rfl
  have hbj : ∀ x ∈ (blocksOf B).getD j [], x < 256 := by
    intro x hx
    apply hbytes
    apply (blocksOf_mem ?_).2 x hx
    rw [List.getD_eq_getElem?_getD, List.getElem?_eq_getElem hjb]
    exact List.get_mem _ j hjb
  have hraw : compressBlock level flags ((blocksOf B).getD j []) =
      rawPayloadOf level ((blocksOf B).getD j []) ++
        [checksumOf (rawPayloadOf level ((blocksOf B).getD j []))] := by
    rw [compressBlock, if_pos hflag]
  have hgetne : (((blocksOf B).map (compressBlock level flags)).getD j [])[loc]? ≠
      some b2 := by
    rw [← hget]
    rw [compressStream, List.getElem?_append, if_neg (by omega)] at hne
    exact hne
  have hfail : decodeBlockPayload flags
      ((recsOf level flags (blocksOf B)).getD j (0, 0)).1
      ((((blocksOf B).map (compressBlock level flags)).getD j []).set loc b2) = none := by
    rw [decodeBlockPayload, if_pos hflag, hpj, hraw]
    rw [hpj, hraw] at hloc hgetne
    rw [List.length_append, List.length_cons, List.length_nil] at hloc
    rw [stripChecksum_set_ne (by omega) (rawPayloadOf_bytes hbj) hb2 hgetne,
      Option.none_bind]
  rw [hset, decompressStream,
    parseHeader_headerBytes hfl hcount (recsOf_bounds hsz)]
  simp only [Option.some_bind]
  have hsplit : splitPayloads (recsOf level flags (blocksOf B))
      (((blocksOf B).map (compressBlock level flags)).set j
        ((((blocksOf B).map (compressBlock level flags)).getD j []).set loc b2)).flatten =
      some (((blocksOf B).map (compressBlock level flags)).set j
        ((((blocksOf B).map (compressBlock level flags)).getD j []).set loc b2)) := by
    apply splitPayloads_flatten
    rw [recsOf_map_snd, List.map_set, List.length_set, setList_getD_self hj]
  rw [hsplit]
  simp only [Option.some_bind]
  have hlens : (recsOf level flags (blocksOf B)).length =
      (((blocksOf B).map (compressBlock level flags)).set j
        ((((blocksOf B).map (compressBlock level flags)).getD j []).set loc b2)).length := by
    simp [recsOf]
  have hjlt : j < (((blocksOf B).map (compressBlock level flags)).set j
      ((((blocksOf B).map (compressBlock level flags)).getD j []).set loc b2)).length := by
    rw [List.length_set]
    exact hj
  have hgetd : (((blocksOf B).map (compressBlock level flags)).set j
        ((((blocksOf B).map (compressBlock level flags)).getD j []).set loc b2)).getD j [] =
      (((blocksOf B).map (compressBlock level flags)).getD j []).set loc b2 := by
    rw [List.getD_eq_getElem?_getD, List.getElem?_set_self hj]
    rfl
  rw [decodeBlocks_none hlens hjlt (by rw [hgetd]; exact hfail), Option.none_bind]

/-! ### Remaining small facts used by the claims -/

theorem parseHeader_bad_magic {b0 : Nat} {rest : List Nat} (h : b0 ≠ 71) :
    parseHeader (b0 :: rest) = none := by
  rw [parseHeader.eq_def]
  split
  · rename_i heq
    rw [List.cons.injEq] at heq
    exact absurd heq.1 h
  · rfl

theorem decompressStream_bad_magic {b0 : Nat} {rest : List Nat} {n w : Nat}
    (h : b0 ≠ 71) : decompressStream (b0 :: rest) n w = none := by
  rw [decompressStream, parseHeader_bad_magic h, Option.none_bind]

theorem decodeAux_invalid_token {d l : Nat} {ts : List Token} {out : List Nat}
    (h : out.length < d) : decodeAux (Token.ref d l :: ts) out = none := by
  rw [decodeAux, if_neg (by omega)]

/-! ## Claim theorems -/

/-- C1: for every input buffer (of bytes, up to a large bound), every
compression level, every flag setting and every worker count at least 1,
compressing and then decompressing with the correct uncompressed size
reproduces the input byte-for-byte. -/
theorem claim1_roundTrip (B : List Nat) (level flags workers : Nat)
    (hbytes : ∀ b ∈ B, b < 256) (hlen : B.length ≤ 2 ^ 40)
    (hfl : flags < 4294967296) (hw : 1 ≤ workers) :
    decompressStream (compressStream level flags B) B.length workers = some B :=
  decompressStream_compressStream hbytes hlen hfl

theorem claim1_roundTrip_witness :
    decompressStream (compressStream 2 1 [1, 2, 3]) 3 4 = some [1, 2, 3] :=
  claim1_roundTrip [1, 2, 3] 2 1 4 (by decide) (by decide) (by decide) (by decide)

/-- C2: the compress bound is monotonically non-decreasing, and a buffer of
any size compresses successfully into an output capacity of that bound. -/
theorem claim2_compressBound :
    (∀ m n : Nat, m ≤ n → GDeflateCompressBound m ≤ GDeflateCompressBound n) ∧
    (∀ (output input : List Nat) (level flags : Nat),
      (GDeflateCompress output (GDeflateCompressBound input.length) input level flags).ok =
        true) := by
  constructor
  · intro m n h
    simp only [GDeflateCompressBound, GDeflate.CompressBound, numBlocks, kBlockSize]
    omega
  · intro output input level flags
    rw [GDeflateCompress, GDeflate.Compress,
      if_pos (show (compressStream level flags input).length ≤
        GDeflateCompressBound input.length from compressStream_length level flags input)]

theorem claim2_compressBound_witness :
    GDeflateCompressBound 3 ≤ GDeflateCompressBound 5 :=
  claim2_compressBound.1 3 5 (by decide)

/-- C3: decompressing the same stream with any two worker counts yields the
same result, and scattering the decoded slices to their precomputed offsets
in any completion order reassembles them in original byte order. -/
theorem claim3_workerInvariance :
    (∀ (stream : List Nat) (outputSize w1 w2 : Nat),
      decompressStream stream outputSize w1 = decompressStream stream outputSize w2) ∧
    (∀ (recs : List (Nat × Nat)) (slices : List (List Nat)) (ws : List (Nat × List Nat)),
      recs.map Prod.fst = slices.map List.length →
      ws.Perm ((offsets 0 recs).zip slices) →
      applyWrites ws (List.replicate ((recs.map Prod.fst).sum) 0) = slices.flatten) := by
  constructor
  · intro stream outputSize w1 w2
    exact (decompressStream_workers stream outputSize w1).trans
      (decompressStream_workers stream outputSize w2).symm
  · intro recs slices ws hm hperm
    have hin : ∀ wr ∈ (offsets 0 recs).zip slices,
        wr.1 + wr.2.length ≤ (List.replicate ((recs.map Prod.fst).sum) 0).length := by
      intro wr hwr
      have := (zip_offsets_bound hm wr hwr).2
      rw [List.length_replicate]
      omega
    have heq := applyWrites_perm hperm.symm
      (List.replicate ((recs.map Prod.fst).sum) 0) hin (zip_offsets_pairwise hm)
    rw [← heq, applyWrites_zip_offsets hm ?_]
    · simp
    · rw [List.length_replicate, ← hm]
      omega

theorem claim3_workerInvariance_witness :
    applyWrites [(0, [5, 6])] (List.replicate 2 0) = [5, 6] :=
  claim3_workerInvariance.2 [(2, 9)] [[5, 6]] [(0, [5, 6])] (by decide)
    (List.Perm.refl _)

/-- C4: when the capacity is insufficient for the actual compressed size the
compress call fails and leaves the output buffer untouched; and in every
case it never writes past the declared capacity. -/
theorem claim4_insufficientCapacity :
    (∀ (output input : List Nat) (capacity level flags : Nat),
      capacity < (compressStream level flags input).length →
      (GDeflateCompress output capacity input level flags).ok = false ∧
      (GDeflateCompress output capacity input level flags).outBuf = output) ∧
    (∀ (output input : List Nat) (capacity level flags : Nat),
      (GDeflateCompress output capacity input level flags).outBuf.drop capacity =
        output.drop capacity) := by
  constructor
  · intro output input capacity level flags hcap
    rw [GDeflateCompress, GDeflate.Compress, if_neg (by omega)]
    exact ⟨rfl, rfl⟩
  · intro output input capacity level flags
    rw [GDeflateCompress, GDeflate.Compress]
    split
    · rename_i hle
      show (compressStream level flags input ++
          output.drop (compressStream level flags input).length).drop capacity =
        output.drop capacity
      have harith : capacity = (compressStream level flags input).length +
          (capacity - (compressStream level flags input).length) := by omega
      conv_lhs => rw [harith]
      rw [List.drop_append, List.drop_drop]
      congr 1
      omega
    · rfl

theorem claim4_insufficientCapacity_witness :
    (GDeflateCompress [] 0 [7] 0 0).ok = false ∧
    (GDeflateCompress [] 0 [7] 0 0).outBuf = [] :=
  claim4_insufficientCapacity.1 [] [7] 0 0 0 (by decide)

/-- C5 counterexample: without the checksum flag, flipping the payload byte
at position 20 of the compressed form of `[7]` (the header occupies the
first 19 bytes) makes decompression succeed with the wrong output `[8]`
instead of failing. -/
theorem claim5_counterexample :
    (compressStream 0 0 [7]).length = 21 ∧
    11 + 8 * numBlocks 1 = 19 ∧
    (compressStream 0 0 [7])[20]? = some 7 ∧
    decompressStream (compressStream 0 0 [7]) 1 1 = some [7] ∧
    decompressStream ((compressStream 0 0 [7]).set 20 8) 1 1 = some [8] := by
  decide

/-- C5 amended: with the checksum flag set, corrupting any single byte in a
block's compressed payload makes decompress fail; and, regardless of flags,
a corrupted magic byte, a block decoding to a length mismatching its
declared uncompressed size, and an invalid back-reference token all fail
the whole call. -/
theorem claim5_corruptionDetected :
    (∀ (B : List Nat) (level flags p b2 : Nat),
      flags % 2 = 1 → flags < 4294967296 →
      (∀ b ∈ B, b < 256) → B.length ≤ 2 ^ 40 →
      11 + 8 * numBlocks B.length ≤ p →
      p < (compressStream level flags B).length →
      b2 < 256 →
      (compressStream level flags B)[p]? ≠ some b2 →
      ∀ outputSize w : Nat,
        decompressStream ((compressStream level flags B).set p b2) outputSize w = none) ∧
    (∀ (flags u : Nat) (payload out : List Nat),
      decodeBlockPayload flags u payload = some out → out.length = u) ∧
    (∀ (d l : Nat) (ts : List Token) (out : List Nat),
      out.length < d → decodeAux (Token.ref d l :: ts) out = none) ∧
    (∀ (b0 : Nat) (rest : List Nat) (n w : Nat),
      b0 ≠ 71 → decompressStream (b0 :: rest) n w = none) := by
  refine ⟨?_, ?_, ?_, ?_⟩
  · intro B level flags p b2 h1 h2 h3 h4 h5 h6 h7 h8 outputSize w
    exact decompress_corrupt h1 h2 h3 h4 h5 h6 h7 h8 outputSize w
  · intro flags u payload out h
    exact decodeBlockPayload_length h
  · intro d l ts out h
    exact decodeAux_invalid_token h
  · intro b0 rest n w h
    exact decompressStream_bad_magic h

theorem claim5_corruptionDetected_witness :
    decompressStream ((compressStream 0 1 [7]).set 20 8) 1 1 = none :=
  claim5_corruptionDetected.1 [7] 0 1 20 8 (by decide) (by decide) (by decide)
    (by decide) (by decide) (by decide) (by decide) (by decide) 1 1

/-- C6: compressing the empty input succeeds and yields exactly the minimal
11-byte header carrying a block count of zero. -/
theorem claim6_emptyInput :
    (∀ level flags : Nat, compressStream level flags [] = headerBytes flags []) ∧
    (∀ flags : Nat, (headerBytes flags []).length = 11) ∧
    (∀ flags : Nat, flags < 4294967296 →
      parseHeader (headerBytes flags []) = some (flags, [], [])) ∧
    (∀ (output : List Nat) (level flags : Nat),
      (GDeflateCompress output (GDeflateCompressBound 0) [] level flags).ok = true) := by
  refine ⟨?_, ?_, ?_, ?_⟩
  · intro level flags
    simp [compressStream, blocksOf, chunksByAux, recsOf]
  · intro flags
    rw [headerBytes_length]
    simp
  · intro flags hfl
    have := @parseHeader_headerBytes flags [] [] hfl (by decide) (by simp)
    simpa using this
  · intro output level flags
    exact claim2_compressBound.2 output [] level flags

theorem claim6_emptyInput_witness :
    parseHeader (headerBytes 0 []) = some (0, [], []) :=
  claim6_emptyInput.2.2.1 0 (by decide)

/-- C7: the compress bound of the shim is the library's pure total function
of the size alone, with an explicit closed form. -/
theorem claim7_compressBoundPure :
    ∀ n : Nat, GDeflateCompressBound n = GDeflate.CompressBound n ∧
      GDeflate.CompressBound n = 11 + 10 * ((n + 65535) / 65536) + n := by
  intro n
  refine ⟨rfl, ?_⟩
  simp only [GDeflate.CompressBound, numBlocks, kBlockSize]
  omega

/-- C8: every block of every compress-produced stream has a token stream
whose back-reference distances stay within the progress inside the block,
and each block decodes from its own payload alone. -/
theorem claim8_blockIndependence :
    (∀ (level : Nat) (B : List Nat), ∀ b ∈ blocksOf B,
      tokensValidFrom (tokenize level b) 0 = true) ∧
    (∀ (level flags : Nat) (b : List Nat), (∀ x ∈ b, x < 256) → b.length ≤ kBlockSize →
      decodeBlockPayload flags b.length (compressBlock level flags b) = some b) := by
  constructor
  · intro level B b _
    exact tokenize_valid level b
  · intro level flags b hbytes hsize
    exact decodeBlockPayload_compressBlock hbytes hsize

theorem claim8_blockIndependence_witness :
    decodeBlockPayload 0 4 (compressBlock 1 0 [5, 5, 5, 5]) = some [5, 5, 5, 5] :=
  claim8_blockIndependence.2 1 0 [5, 5, 5, 5] (by decide) (by decide)

/-- C9: each shim export returns exactly the corresponding library function
applied to the same unmodified arguments. -/
theorem claim9_shimForwards :
    (∀ size : Nat, GDeflateCompressBound size = GDeflate.CompressBound size) ∧
    (∀ (output : List Nat) (outputSize : Nat) (input : List Nat) (level flags : Nat),
      GDeflateCompress output outputSize input level flags =
        GDeflate.Compress output outputSize input level flags) ∧
    (∀ (output : List Nat) (outputSize : Nat) (input : List Nat) (numWorkers : Nat),
      GDeflateDecompress output outputSize input numWorkers =
        GDeflate.Decompress output outputSize input numWorkers) :=
  ⟨fun _ => rfl, fun _ _ _ _ _ => rfl, fun _ _ _ _ => rfl⟩

/-- C10: the decompress export receives the size by value, so no call can
change the caller's size variable, while a compress call can. -/
theorem claim10_sizeByValue :
    (∀ (env : CallerEnv) (input : List Nat) (numWorkers : Nat),
      ((decompressCall env input numWorkers).1).sizeVar = env.sizeVar) ∧
    (∃ (env : CallerEnv) (input : List Nat) (level flags : Nat),
      ((compressCall env input level flags).1).sizeVar ≠ env.sizeVar) := by
  constructor
  · intro env input numWorkers
    rfl
  · refine ⟨⟨100, List.replicate 100 0⟩, [], 0, 0, ?_⟩
    decide

end GDeflatePacker
